import Mathlib

/-!
# Verification of the aliasly alias-resolution and execution engine

Shallow embedding of the Go sources:
* `internal/alias/parser.go` — placeholder scanning, parameter binding,
  command expansion (`ParseCommand`, `ExtractPlaceholders`);
* `internal/alias` executor — `Execute`, `Run` (process runner, modelled
  with an explicit child-outcome oracle for the OS boundary);
* `internal/config/config.go` — `AddAlias` over the in-memory alias list.

Strings are handled through their underlying character lists; Go maps keyed
by strings are embedded as association lists where the most recent insertion
is placed at the front (so first-match lookup realises overwrite semantics).
-/

namespace Aliasly

/-- Embeds `config.Param` (config.go): a declared parameter of an alias. -/
structure Param where
  Name : String
  Description : String
  Required : Bool
  Default : String
deriving DecidableEq, Repr

/-- Embeds `config.Alias` (config.go): a stored alias definition. -/
structure Alias where
  Name : String
  Command : String
  Description : String
  Params : List Param
deriving DecidableEq, Repr

/-- Embeds `alias.ParseError` (parser.go). -/
structure ParseError where
  Message : String
  ParamName : String
deriving DecidableEq, Repr

/-- The placeholder token `fmt.Sprintf("{{%s}}", name)` of parser.go
(braces written with character escapes). -/
def placeholder (name : String) : String := "\x7b\x7b" ++ name ++ "\x7d\x7d"

/-- Embeds the binding loop of `ParseCommand` (parser.go lines 44-49):
`for i, param := range a.Params { if i < len(args) { provided[param.Name] = args[i] } }`.
The Go map is embedded as an association list; a map assignment conses the
new entry to the front, and `List.lookup` (first match) therefore returns
the most recently written value for a key, exactly like the Go map. -/
def buildProvided (params : List Param) (args : List String) : List (String × String) :=
  (params.zip args).foldl (fun m pa => (pa.1.Name, pa.2) :: m) []

/-- The value used for a parameter in the substitution loop of `ParseCommand`
(parser.go lines 66-71): the provided value if the map has one, else the
declared default. -/
def resolveValue (prov : List (String × String)) (p : Param) : String :=
  match prov.lookup p.Name with
  | some v => v
  | none => p.Default

/-- Dropping a prefix by a predicate never lengthens a list (used for
termination of the scanners below). -/
theorem length_dropWhile_le (p : Char → Bool) (l : List Char) :
    (l.dropWhile p).length ≤ l.length := by
  induction l with
  | nil => simp [List.dropWhile]
  | cons c rest ih =>
    by_cases hp : p c
    · simp only [List.dropWhile, hp]
      exact Nat.le_succ_of_le ih
    · simp [List.dropWhile, hp]

/-- Embeds `strings.ReplaceAll(s, pat, rep)` on character lists, for a
non-empty pattern: scan left to right, on a match emit `rep` and continue
after the matched pattern (the replacement text is not rescanned), otherwise
keep one character and continue.  `ParseCommand` only ever calls this with
the pattern `{{name}}`, which is never empty, so Go's empty-pattern
behaviour (interleaving `rep` at every position) is irrelevant; for an
empty pattern this embedding returns `s` unchanged. -/
def replaceList (pat rep : List Char) : List Char → List Char
  | [] => []
  | c :: rest =>
    if !pat.isEmpty && pat.isPrefixOf (c :: rest) then
      rep ++ replaceList pat rep (rest.drop (pat.length - 1))
    else
      c :: replaceList pat rep rest
termination_by s => s.length
decreasing_by
  · simp only [List.length_cons]
    have h := List.length_drop (pat.length - 1) rest
    omega
  · simp

/-- `strings.ReplaceAll` on Lean strings. -/
def replaceAllStr (s pat rep : String) : String :=
  String.mk (replaceList pat.data rep.data s.data)

/-- Embeds the substitution loop of `ParseCommand` (parser.go lines 62-75):
for each parameter in declaration order, replace every occurrence of its
placeholder in the progressively-rewritten command with its resolved value. -/
def substitute (params : List Param) (prov : List (String × String)) (command : String) : String :=
  params.foldl (fun cmd p => replaceAllStr cmd (placeholder p.Name) (resolveValue prov p)) command

/-- Embeds `alias.ParseCommand` (parser.go lines 39-78): build the provided
map positionally, fail on the first required parameter without a value,
otherwise substitute every parameter in declaration order. -/
def ParseCommand (a : Alias) (args : List String) : Except ParseError String :=
  match a.Params.find?
      (fun p => p.Required && ((buildProvided a.Params args).lookup p.Name).isNone) with
  | some p => Except.error ⟨"missing required parameter: " ++ p.Name, p.Name⟩
  | none => Except.ok (substitute a.Params (buildProvided a.Params args) a.Command)

/-- The character class of `\w` in Go's RE2 (`[0-9A-Za-z_]`), used by the
placeholder pattern of parser.go line 12. -/
def isWordChar (c : Char) : Bool := c.isAlphanum || c = '_'

/-- If a list decomposes as a run of word characters followed by a closing
brace, then `takeWhile`/`dropWhile` recover exactly that decomposition (the
run cannot extend, because a brace is not a word character). -/
theorem takeWhile_word_split (w r : List Char) (hw : ∀ c ∈ w, isWordChar c = true) :
    (w ++ '}' :: r).takeWhile isWordChar = w ∧
      (w ++ '}' :: r).dropWhile isWordChar = '}' :: r := by
  induction w with
  | nil =>
    constructor <;> simp [List.takeWhile, List.dropWhile, isWordChar]
  | cons c w ih =>
    have hc : isWordChar c = true := hw c (List.mem_cons_self c w)
    have ih' := ih (fun d hd => hw d (List.mem_cons_of_mem c hd))
    constructor
    · simp only [List.cons_append, List.takeWhile_cons, hc, if_true, ih'.1]
    · simp only [List.cons_append, List.dropWhile_cons, hc, if_true, ih'.2]

/-- A match of the regex `{{(\w+)}}` (parser.go line 12) starting at the
head of `s`: two open braces, a maximal non-empty run of word characters,
two close braces.  Returns the captured identifier and the remainder after
the match, or `none` when no match starts here.  Because `\w` matches
neither brace, the RE2 match at a position is unique and its word run is
maximal, so `takeWhile`/`dropWhile` computes it. -/
def matchAt (s : List Char) : Option (List Char × List Char) :=
  match s with
  | '{' :: '{' :: rest =>
    if (rest.takeWhile isWordChar).isEmpty then none
    else
      match rest.dropWhile isWordChar with
      | '}' :: '}' :: rest2 => some (rest.takeWhile isWordChar, rest2)
      | _ => none
  | _ => none

/-- A regex match of `{{(\w+)}}` splitting `s` into the match at its head
(capturing `w`) and the remainder `rest` — the decomposition the spec
describes for one placeholder occurrence. -/
def MatchSplit (s w rest : List Char) : Prop :=
  s = '{' :: '{' :: (w ++ '}' :: '}' :: rest) ∧ w ≠ [] ∧ ∀ c ∈ w, isWordChar c = true

/-- A successful head match yields a `MatchSplit` decomposition. -/
theorem matchSplit_of_matchAt_some (s w rest2 : List Char)
    (h : matchAt s = some (w, rest2)) : MatchSplit s w rest2 := by
  unfold matchAt at h
  split at h
  · next rest =>
    split at h
    · exact absurd h (by simp)
    · next hne =>
      split at h
      · next r2 hdw =>
        have htw : rest.takeWhile isWordChar = w := congrArg Prod.fst (Option.some.inj h)
        have hr2 : r2 = rest2 := congrArg Prod.snd (Option.some.inj h)
        have hdw2 : rest.dropWhile isWordChar = '}' :: '}' :: rest2 := by rw [hdw, hr2]
        refine ⟨?_, ?_, ?_⟩
        · have hre : rest = w ++ '}' :: '}' :: rest2 := by
            conv_lhs => rw [← List.takeWhile_append_dropWhile (p := isWordChar) (l := rest)]
            rw [htw, hdw2]
          rw [hre]
        · intro he
          rw [he] at htw
          exact hne (by rw [htw]; rfl)
        · intro c hc
          rw [← htw] at hc
          exact List.mem_takeWhile_imp hc
      · exact absurd h (by simp)
  · exact absurd h (by simp)

/-- A `MatchSplit` decomposition forces the head match to succeed with
exactly that capture and remainder. -/
theorem matchAt_some_of_matchSplit (s w rest2 : List Char) (h : MatchSplit s w rest2) :
    matchAt s = some (w, rest2) := by
  obtain ⟨hs, hne, hword⟩ := h
  subst hs
  have hsplit := takeWhile_word_split w ('}' :: rest2) hword
  have hemp : w.isEmpty = false := by
    cases w with
    | nil => exact absurd rfl hne
    | cons c w => rfl
  unfold matchAt
  split
  · next rest' heq =>
    have hr : rest' = w ++ '}' :: '}' :: rest2 := by
      injection heq with _ h
      injection h with _ h2
      exact h2.symm
    subst hr
    rw [hsplit.1, hsplit.2, hemp]
    simp
  · next hcon =>
    exact (hcon (w ++ '}' :: '}' :: rest2) rfl).elim

/-- When no head match exists, no `MatchSplit` decomposition exists. -/
theorem no_matchSplit_of_matchAt_none (s : List Char) (h : matchAt s = none) :
    ∀ w rest2, ¬ MatchSplit s w rest2 := by
  intro w rest2 hm
  rw [matchAt_some_of_matchSplit s w rest2 hm] at h
  exact Option.noConfusion h

/-- A successful head match consumes at least the two braces, so the
remainder is strictly shorter than the input. -/
theorem matchAt_length (s : List Char) (w rest2 : List Char)
    (h : matchAt s = some (w, rest2)) : rest2.length < s.length := by
  obtain ⟨hs, _, _⟩ := matchSplit_of_matchAt_some s w rest2 h
  subst hs
  simp [List.length_append]
  omega

/-- Embeds `paramPattern.FindAllStringSubmatch(command, -1)` of
`ExtractPlaceholders` (parser.go lines 83-99): scan left to right; when a
match of the placeholder pattern starts at the current position, emit its
captured identifier and continue after the whole match (non-overlapping),
otherwise advance one character. -/
def scanPlaceholders (s : List Char) : List String :=
  match s with
  | [] => []
  | c :: rest =>
    match hm : matchAt (c :: rest) with
    | some (w, rest2) => String.mk w :: scanPlaceholders rest2
    | none => scanPlaceholders rest
termination_by s.length
decreasing_by
  · exact matchAt_length (c :: rest) w rest2 hm
  · simp

/-- Embeds `alias.ExtractPlaceholders` (parser.go lines 83-99). -/
def ExtractPlaceholders (command : String) : List String :=
  scanPlaceholders command.data

/-! ## The process runner (executor.go / unnamed executor source)

`Execute` talks to two external boundaries: the loaded configuration
(`config.Get()`) and the operating system (`exec.Cmd`).  Both are embedded as
explicit inputs: `ExecEnv` carries the configuration state, the platform, the
default shell, and an oracle describing what the child process would do. -/

/-- Embeds `config.Settings` (config.go). -/
structure Settings where
  Shell : String
  Verbose : Bool
deriving DecidableEq, Repr

/-- Embeds `alias.ExecuteOptions` (executor source). -/
structure ExecuteOptions where
  Shell : String
  Verbose : Bool
  DryRun : Bool
deriving DecidableEq, Repr

/-- What the operating system does when the executor launches the child:
the child exits normally with a status code, is terminated by a signal, or
cannot be started at all. -/
inductive ChildOutcome where
  | exited (code : Int)
  | signaled
  | startFailure (msg : String)
deriving DecidableEq, Repr

/-- The external state `Execute` reads: the configuration (if `config.Get()`
succeeds), the system default shell, the platform, and the child outcome. -/
structure ExecEnv where
  cfg : Option Settings
  defaultShell : String
  isWindows : Bool
  outcome : ChildOutcome
deriving DecidableEq, Repr

/-- The Go error returned by `cmd.Run()`: `nil` on exit status 0, an
`*exec.ExitError` carrying `ExitCode()` on abnormal termination (the code is
`-1` when the child was signaled), and some other error when the process
could not be started. -/
inductive GoRunError where
  | exitError (code : Int)
  | other (msg : String)
deriving DecidableEq, Repr

/-- Maps a child outcome to the result of `cmd.Run()`. -/
def cmdRunResult : ChildOutcome → Option GoRunError
  | ChildOutcome.exited c => if c = 0 then none else some (GoRunError.exitError c)
  | ChildOutcome.signaled => some (GoRunError.exitError (-1))
  | ChildOutcome.startFailure m => some (GoRunError.other m)

/-- Observable result of `Execute`: the returned exit code and error, the
lines printed, and the child invocation that was constructed and run
(`none` when no process was constructed, as in dry-run mode). -/
structure ExecResult where
  exitCode : Int
  err : Option String
  printed : List String
  spawned : Option (String × List String)
deriving DecidableEq, Repr

/-- Embeds `alias.Execute` (executor source lines 35-111): resolve the
shell (explicit option, else configured shell, else system default), resolve
verbosity (explicit option, else configured verbosity), print the command
when verbose, short-circuit in dry-run mode, otherwise build the shell
invocation, run it, and translate `cmd.Run()`'s result into an exit code:
`nil` error means 0, an exit error yields its code with no error, and any
other failure yields `-1` with a wrapped error. -/
def Execute (command : String) (opts : ExecuteOptions) (env : ExecEnv) : ExecResult :=
  let shell :=
    if opts.Shell ≠ "" then opts.Shell
    else
      match env.cfg with
      | some c => if c.Shell ≠ "" then c.Shell else env.defaultShell
      | none => env.defaultShell
  let verbose :=
    if opts.Verbose then true
    else
      match env.cfg with
      | some c => c.Verbose
      | none => false
  let pre := if verbose then ["$ " ++ command] else []
  if opts.DryRun then
    ⟨0, none, pre ++ ["[dry-run] Would execute: " ++ command], none⟩
  else
    let argv :=
      if env.isWindows then ("cmd", ["/C", command]) else (shell, ["-c", command])
    match cmdRunResult env.outcome with
    | none => ⟨0, none, pre, some argv⟩
    | some (GoRunError.exitError c) => ⟨c, none, pre, some argv⟩
    | some (GoRunError.other m) =>
      ⟨-1, some ("failed to execute command: " ++ m), pre, some argv⟩

/-- Observable result of `Run`: exit code, the binding error if parsing
failed, the execution error if launching failed, and the spawned child. -/
structure RunResult where
  exitCode : Int
  parseError : Option ParseError
  execError : Option String
  spawned : Option (String × List String)
deriving DecidableEq, Repr

/-- Embeds `alias.Run` (executor source lines 116-125): parse the alias with
the arguments; on a binding error return `-1` with that error without
consulting the executor; otherwise execute with zero-valued options. -/
def Run (a : Alias) (args : List String) (env : ExecEnv) : RunResult :=
  match ParseCommand a args with
  | Except.error e => ⟨-1, some e, none, none⟩
  | Except.ok command =>
    let r := Execute command ⟨"", false, false⟩ env
    ⟨r.exitCode, none, r.err, r.spawned⟩

/-! ## The configuration store (config.go) -/

/-- Embeds `config.AddAlias` (config.go lines 211-229) acting on the
in-memory alias list of the loaded configuration: if any stored alias has
the same name, return an error and leave the list untouched; otherwise
append the new alias at the end. -/
def AddAlias (aliases : List Alias) (a : Alias) : Option String × List Alias :=
  match aliases.find? (fun x => x.Name == a.Name) with
  | some _ => (some ("alias \x27" ++ a.Name ++ "\x27 already exists"), aliases)
  | none => (none, aliases ++ [a])

/-! ## Spec-side definitions

These definitions follow the specification's words, to be compared with the
source-embedded functions above. -/

/-- Modelled from the spec (§3, §4.2, §4.3): strictly positional expansion.
For each parameter in declaration order, replace every literal occurrence of
its placeholder in the progressively-mutated template with its positionally
bound value: the i-th argument for the i-th declared parameter, or the
declared default when no i-th argument exists. -/
def expandPositional : List Param → List String → String → String
  | [], _, command => command
  | p :: ps, [], command =>
    expandPositional ps [] (replaceAllStr command (placeholder p.Name) p.Default)
  | p :: ps, v :: vs, command =>
    expandPositional ps vs (replaceAllStr command (placeholder p.Name) v)

/-- Whether `pat` occurs as a contiguous sub-list of `s` (an occurrence of a
placeholder token in a template). -/
def occurs (pat : List Char) : List Char → Bool
  | [] => pat.isEmpty
  | c :: rest => pat.isPrefixOf (c :: rest) || occurs pat rest

/-- Modelled from the spec (§4.1): the captured identifiers of the
non-overlapping, left-to-right matches of `{{` + one-or-more word characters
+ `}}`.  A match is taken exactly when one starts at the current position
(leftmost); scanning resumes after the whole match, otherwise one character
further. -/
inductive RegexCaptures : List Char → List String → Prop
  | nil : RegexCaptures [] []
  | matchHead (s w rest : List Char) (ns : List String) :
      MatchSplit s w rest → RegexCaptures rest ns →
      RegexCaptures s (String.mk w :: ns)
  | skipHead (c : Char) (s : List Char) (ns : List String) :
      (∀ w rest, ¬ MatchSplit (c :: s) w rest) → RegexCaptures s ns →
      RegexCaptures (c :: s) ns

/-! ## Helper lemmas about the binding map -/

/-- Folding entry-cons over a list equals the fold from the empty
accumulator, appended to the initial accumulator. -/
theorem foldl_consEntry_acc (f : Param × String → String × String)
    (l : List (Param × String)) :
    ∀ acc : List (String × String),
      l.foldl (fun m pa => f pa :: m) acc = l.foldl (fun m pa => f pa :: m) [] ++ acc := by
  induction l with
  | nil => intro acc; simp
  | cons pa l ih =>
    intro acc
    simp only [List.foldl_cons]
    rw [ih (f pa :: acc), ih [f pa]]
    simp

/-- Unfolding `buildProvided` one parameter and one argument at a time: the
new entry lands at the end of the association list built from the tails
(i.e., it is the most recent insertion for lookups from the front of the
reversed list). -/
theorem buildProvided_cons (p : Param) (ps : List Param) (a : String) (as : List String) :
    buildProvided (p :: ps) (a :: as) = buildProvided ps as ++ [(p.Name, a)] := by
  simp only [buildProvided, List.zip_cons_cons, List.foldl_cons]
  exact foldl_consEntry_acc (fun pa => (pa.1.Name, pa.2)) (ps.zip as) [(p.Name, a)]

@[simp] theorem buildProvided_nil_args (ps : List Param) : buildProvided ps [] = [] := by
  simp [buildProvided]

@[simp] theorem buildProvided_nil_params (as : List String) : buildProvided [] as = [] := by
  simp [buildProvided]

/-- Lookup distributes over append: the earlier association list wins. -/
theorem lookup_append (l₁ l₂ : List (String × String)) (k : String) :
    (l₁ ++ l₂).lookup k =
      match l₁.lookup k with
      | some v => some v
      | none => l₂.lookup k := by
  induction l₁ with
  | nil => simp [List.lookup]
  | cons e l₁ ih =>
    obtain ⟨k₁, v₁⟩ := e
    by_cases h : k = k₁
    · simp [List.lookup, h]
    · have hb : (k == k₁) = false := by simp [h]
      simp [List.lookup, hb, ih]

/-- If no parameter in `ps` is named `k`, the binding map built from `ps`
has no entry for `k`. -/
theorem lookup_buildProvided_none (ps : List Param) (as : List String) (k : String)
    (h : ∀ p ∈ ps, p.Name ≠ k) : (buildProvided ps as).lookup k = none := by
  induction ps generalizing as with
  | nil => simp [List.lookup]
  | cons p ps ih =>
    cases as with
    | nil => simp [List.lookup]
    | cons a as =>
      rw [buildProvided_cons, lookup_append]
      have hp : p.Name ≠ k := h p (List.mem_cons_self p ps)
      have hb : (k == p.Name) = false := by
        simp
        exact fun he => hp he.symm
      rw [ih as (fun q hq => h q (List.mem_cons_of_mem p hq))]
      simp [List.lookup, hb]

/-- Entries for other names are unaffected by binding the head parameter. -/
theorem lookup_buildProvided_cons_ne (p : Param) (ps : List Param) (a : String)
    (as : List String) (k : String) (h : k ≠ p.Name) :
    (buildProvided (p :: ps) (a :: as)).lookup k = (buildProvided ps as).lookup k := by
  rw [buildProvided_cons, lookup_append]
  have hb : (k == p.Name) = false := by simp [h]
  cases hres : (buildProvided ps as).lookup k <;> simp [List.lookup, hb]

/-- Positional binding under pairwise-distinct parameter names: when the
i-th parameter exists, the i-th argument exists, and no two declared
parameters share a name, the binding map carries exactly the i-th argument
under the i-th parameter's name. -/
theorem lookup_buildProvided_of_nodup (ps : List Param) :
    ∀ (as : List String) (i : Nat) (p : Param) (a : String),
      (ps.map Param.Name).Nodup → ps.get? i = some p → as.get? i = some a →
      (buildProvided ps as).lookup p.Name = some a := by
  induction ps with
  | nil => intro as i p a _ hp _; simp at hp
  | cons p₀ ps ih =>
    intro as i p a hnd hp ha
    cases as with
    | nil => simp at ha
    | cons a₀ as =>
      simp only [List.map_cons, List.nodup_cons] at hnd
      cases i with
      | zero =>
        simp only [List.get?] at hp ha
        cases hp; cases ha
        rw [buildProvided_cons, lookup_append]
        have hnone : (buildProvided ps as).lookup p₀.Name = none := by
          refine lookup_buildProvided_none ps as p₀.Name (fun q hq hqe => ?_)
          exact hnd.1 (hqe ▸ List.mem_map_of_mem Param.Name hq)
        rw [hnone]
        simp [List.lookup]
      | succ i =>
        simp only [List.get?] at hp ha
        have hres := ih as i p a hnd.2 hp ha
        rw [buildProvided_cons, lookup_append, hres]

/-! ## Helper lemmas about validation and substitution -/

/-- `List.find?` returns the element at the first index whose predicate
holds, matching the early-return loop of the Go code. -/
theorem find?_of_first (P : Param → Bool) (l : List Param) :
    ∀ (i : Nat) (x : Param), l.get? i = some x → P x = true →
      (∀ j y, j < i → l.get? j = some y → P y = false) → l.find? P = some x := by
  induction l with
  | nil => intro i x hx _ _; simp at hx
  | cons z l ih =>
    intro i x hx hP hmin
    cases i with
    | zero =>
      simp only [List.get?] at hx
      cases hx
      exact List.find?_cons_of_pos l hP
    | succ i =>
      have hz : P z = false := hmin 0 z (Nat.succ_pos i) rfl
      rw [List.find?_cons_of_neg l (by simp [hz])]
      exact ih i x hx hP (fun j y hj hy => hmin (j + 1) y (Nat.succ_lt_succ hj) hy)

theorem substitute_cons (p : Param) (ps : List Param) (prov : List (String × String))
    (command : String) :
    substitute (p :: ps) prov command =
      substitute ps prov (replaceAllStr command (placeholder p.Name) (resolveValue prov p)) :=
  rfl

/-- Substitution only consults the binding map at the declared parameter
names, so maps agreeing there substitute identically. -/
theorem substitute_congr (params : List Param) (prov₁ prov₂ : List (String × String))
    (h : ∀ p ∈ params, prov₁.lookup p.Name = prov₂.lookup p.Name) :
    ∀ command, substitute params prov₁ command = substitute params prov₂ command := by
  induction params with
  | nil => intro command; rfl
  | cons p ps ih =>
    intro command
    rw [substitute_cons, substitute_cons]
    have hv : resolveValue prov₁ p = resolveValue prov₂ p := by
      simp only [resolveValue, h p (List.mem_cons_self p ps)]
    rw [hv]
    exact ih (fun q hq => h q (List.mem_cons_of_mem p hq)) _

/-- Replacement is the identity when the pattern does not occur. -/
theorem replaceList_of_not_occurs (pat rep : List Char) :
    ∀ s : List Char, occurs pat s = false → replaceList pat rep s = s := by
  intro s
  induction s with
  | nil => intro _; simp [replaceList]
  | cons c rest ih =>
    intro h
    simp only [occurs, Bool.or_eq_false_iff] at h
    have hcond : (!pat.isEmpty && pat.isPrefixOf (c :: rest)) = false := by
      simp [h.1]
    simp only [replaceList, hcond, Bool.false_eq_true, if_false]
    rw [ih h.2]

/-- String-level version of `replaceList_of_not_occurs`. -/
theorem replaceAllStr_of_not_occurs (s pat rep : String)
    (h : occurs pat.data s.data = false) : replaceAllStr s pat rep = s := by
  simp only [replaceAllStr, replaceList_of_not_occurs pat.data rep.data s.data h]

/-- Substitution leaves a command unchanged when no declared parameter's
placeholder occurs in it. -/
theorem substitute_of_no_occurs (params : List Param) (prov : List (String × String))
    (command : String)
    (h : ∀ p ∈ params, occurs (placeholder p.Name).data command.data = false) :
    substitute params prov command = command := by
  induction params with
  | nil => rfl
  | cons p ps ih =>
    rw [substitute_cons,
      replaceAllStr_of_not_occurs command (placeholder p.Name) (resolveValue prov p)
        (h p (List.mem_cons_self p ps))]
    exact ih (fun q hq => h q (List.mem_cons_of_mem p hq))

/-- Zipping truncates the right list at the length of the left one. -/
theorem zip_take_length (ps : List Param) :
    ∀ as : List String, ps.zip as = ps.zip (as.take ps.length) := by
  induction ps with
  | nil => intro as; simp
  | cons p ps ih =>
    intro as
    cases as with
    | nil => simp
    | cons a as => simp [List.zip_cons_cons, ih as]

/-- The binding map ignores arguments beyond the declared parameter count. -/
theorem buildProvided_take (ps : List Param) (as : List String) :
    buildProvided ps as = buildProvided ps (as.take ps.length) := by
  simp only [buildProvided]
  rw [← zip_take_length]

/-! ## Helper lemmas about the placeholder scanner -/

/-- Computation lemma for the scanner when a match starts at the head. -/
theorem scanPlaceholders_cons_match (c : Char) (rest w rest2 : List Char)
    (hm : matchAt (c :: rest) = some (w, rest2)) :
    scanPlaceholders (c :: rest) = String.mk w :: scanPlaceholders rest2 := by
  simp only [scanPlaceholders]
  split
  · next w' r2' heq =>
    rw [hm] at heq
    injection heq with heq2
    injection heq2 with h1 h2
    rw [h1, h2]
  · next heq =>
    rw [hm] at heq
    exact absurd heq (by simp)

/-- Computation lemma for the scanner when no match starts at the head. -/
theorem scanPlaceholders_cons_skip (c : Char) (rest : List Char)
    (hm : matchAt (c :: rest) = none) :
    scanPlaceholders (c :: rest) = scanPlaceholders rest := by
  simp only [scanPlaceholders]
  split
  · next w' r2' heq =>
    rw [hm] at heq
    exact absurd heq (by simp)
  · rfl

/-- The executable scanner computes exactly the captures of the
non-overlapping left-to-right matches of the placeholder pattern
(strong induction on the input length). -/
theorem scanPlaceholders_regexCaptures_aux (n : Nat) :
    ∀ s : List Char, s.length ≤ n → RegexCaptures s (scanPlaceholders s) := by
  induction n with
  | zero =>
    intro s hs
    have hnil : s = [] := List.length_eq_zero.mp (Nat.le_zero.mp hs)
    subst hnil
    simp only [scanPlaceholders]
    exact RegexCaptures.nil
  | succ n ih =>
    intro s hs
    cases s with
    | nil =>
      simp only [scanPlaceholders]
      exact RegexCaptures.nil
    | cons c rest =>
      cases hm : matchAt (c :: rest) with
      | some pr =>
        obtain ⟨w, rest2⟩ := pr
        rw [scanPlaceholders_cons_match c rest w rest2 hm]
        refine RegexCaptures.matchHead (c :: rest) w rest2 _
          (matchSplit_of_matchAt_some (c :: rest) w rest2 hm) ?_
        have hlen := matchAt_length (c :: rest) w rest2 hm
        simp only [List.length_cons] at hlen hs
        exact ih rest2 (by omega)
      | none =>
        rw [scanPlaceholders_cons_skip c rest hm]
        refine RegexCaptures.skipHead c rest _
          (no_matchSplit_of_matchAt_none (c :: rest) hm) ?_
        simp only [List.length_cons] at hs
        exact ih rest (by omega)

/-- The executable scanner computes exactly the captures of the
non-overlapping left-to-right matches of the placeholder pattern. -/
theorem scanPlaceholders_regexCaptures (s : List Char) :
    RegexCaptures s (scanPlaceholders s) :=
  scanPlaceholders_regexCaptures_aux s.length s (Nat.le_refl _)

/-! ## Refinement: map-based substitution versus positional expansion -/

/-- Under pairwise-distinct parameter names, the source's substitution
(driven by the name-keyed binding map) coincides with the spec's strictly
positional expansion. -/
theorem substitute_eq_expandPositional (params : List Param) :
    ∀ (args : List String) (command : String),
      (params.map Param.Name).Nodup →
      substitute params (buildProvided params args) command =
        expandPositional params args command := by
  induction params with
  | nil => intro args command _; rfl
  | cons p ps ih =>
    intro args command hnd
    simp only [List.map_cons, List.nodup_cons] at hnd
    cases args with
    | nil =>
      rw [substitute_cons]
      simp only [expandPositional]
      have hval : resolveValue (buildProvided (p :: ps) []) p = p.Default := by
        simp [resolveValue, List.lookup]
      rw [hval]
      rw [show buildProvided (p :: ps) [] = buildProvided ps [] from by simp]
      exact ih [] _ hnd.2
    | cons a as =>
      rw [substitute_cons]
      simp only [expandPositional]
      have hnone : (buildProvided ps as).lookup p.Name = none :=
        lookup_buildProvided_none ps as p.Name
          (fun q hq hqe => hnd.1 (hqe ▸ List.mem_map_of_mem Param.Name hq))
      have hlook : (buildProvided (p :: ps) (a :: as)).lookup p.Name = some a := by
        rw [buildProvided_cons, lookup_append, hnone]
        simp [List.lookup]
      have hval : resolveValue (buildProvided (p :: ps) (a :: as)) p = a := by
        simp [resolveValue, hlook]
      rw [hval]
      have hagree : ∀ q ∈ ps,
          (buildProvided (p :: ps) (a :: as)).lookup q.Name =
            (buildProvided ps as).lookup q.Name := by
        intro q hq
        refine lookup_buildProvided_cons_ne p ps a as q.Name ?_
        intro he
        exact hnd.1 (he ▸ List.mem_map_of_mem Param.Name hq)
      rw [substitute_congr ps _ _ hagree _]
      exact ih as _ hnd.2

/-! Concrete fixtures used by witnesses and counterexamples.  `gcAlias` and
`gpAlias` are the sample aliases of the default configuration (config.go
lines 320-343); the `dup` aliases declare two parameters sharing one name,
which the data model permits (parameter lists come from user-editable
configuration and are nowhere checked for distinct names). -/

def gcAlias : Alias :=
  ⟨"gc", "git commit -am \"{{message}}\"", "Git commit with message",
    [⟨"message", "Commit message", true, ""⟩]⟩

def gpAlias : Alias :=
  ⟨"gp", "git push origin {{branch}}", "Push to remote branch",
    [⟨"branch", "Branch name", false, "main"⟩]⟩

def dupOptAlias : Alias :=
  ⟨"dupopt", "{{a}}", "two optional parameters sharing a name",
    [⟨"a", "", false, "d1"⟩, ⟨"a", "", false, "d2"⟩]⟩

def dupReqAlias : Alias :=
  ⟨"dupreq", "{{a}}", "optional then required parameter sharing a name",
    [⟨"a", "", false, ""⟩, ⟨"a", "", true, ""⟩]⟩

def plainEnv : ExecEnv := ⟨none, "/bin/sh", false, ChildOutcome.exited 0⟩

/-! Claim C1 -/

/-- C1 counterexample: binding is NOT independent of parameter names.  In
`dupOptAlias` the two declared parameters share the name `a`; with arguments
`["x", "y"]` the binding map carries `"y"` — the second argument — under the
name of parameter 0, so the value bound to the 0-th declared parameter is
not `args[0] = "x"` as the claim requires. -/
theorem c1_counterexample :
    dupOptAlias.Params.get? 0 = some ⟨"a", "", false, "d1"⟩ ∧
    (buildProvided dupOptAlias.Params ["x", "y"]).lookup "a" = some "y" ∧
    ("y" : String) ≠ "x" := by
  refine ⟨rfl, ?_, by decide⟩
  rfl

/-- C1 (amended): binding is strictly positional provided the declared
parameter names are pairwise distinct: the value bound to the i-th declared
parameter's name is the i-th argument whenever that argument exists.  (With
duplicated names the argument of the last in-range index sharing the name
wins, as `c1_counterexample` shows.) -/
theorem c1_positional_binding (params : List Param) (args : List String) (i : Nat)
    (p : Param) (a : String) (hnd : (params.map Param.Name).Nodup)
    (hp : params.get? i = some p) (ha : args.get? i = some a) :
    (buildProvided params args).lookup p.Name = some a :=
  lookup_buildProvided_of_nodup params args i p a hnd hp ha

/-- C1 witness: in a two-parameter alias with distinct names, the second
argument is bound to the second parameter. -/
theorem c1_witness :
    (buildProvided [⟨"x1", "", true, ""⟩, ⟨"x2", "", false, ""⟩] ["v1", "v2"]).lookup "x2" =
      some "v2" :=
  c1_positional_binding [⟨"x1", "", true, ""⟩, ⟨"x2", "", false, ""⟩] ["v1", "v2"] 1
    ⟨"x2", "", false, ""⟩ "v2" (by decide) (by decide) (by decide)

/-! Claim C2 -/

/-- C2 counterexample: a required parameter that receives no positional
argument need not make `ParseCommand` fail.  In `dupReqAlias` the parameter
at index 1 is required and there is only one argument (so index 1 receives
no positional argument), yet `ParseCommand` succeeds, because the single
argument was stored in the binding map under the shared name `a` by
parameter 0. -/
theorem c2_counterexample :
    dupReqAlias.Params.get? 1 = some ⟨"a", "", true, ""⟩ ∧
    (["x"] : List String).length ≤ 1 ∧
    ParseCommand dupReqAlias ["x"] = Except.ok "x" := by
  refine ⟨rfl, by decide, ?_⟩
  simp [ParseCommand, dupReqAlias, buildProvided, substitute, resolveValue, replaceAllStr,
    replaceList, placeholder, List.lookup, List.find?]

/-- C2 (amended): if some required parameter's name received no value from
the positional binding pass, `ParseCommand` fails with a
`MissingRequiredParameter` error naming the first (lowest declaration
index) such parameter — before any substitution is performed — and for
every execution environment `Run` returns `-1` with that binding error,
without constructing or launching any process.  (When parameter names are
pairwise distinct, "received no value" coincides with "received no
positional argument", which is the claim as stated.) -/
theorem c2_missing_required (a : Alias) (args : List String) (i : Nat) (p : Param)
    (hp : a.Params.get? i = some p) (hreq : p.Required = true)
    (hmiss : (buildProvided a.Params args).lookup p.Name = none)
    (hfirst : ∀ j q, j < i → a.Params.get? j = some q → q.Required = true →
      ((buildProvided a.Params args).lookup q.Name).isSome) :
    ParseCommand a args =
      Except.error ⟨"missing required parameter: " ++ p.Name, p.Name⟩ ∧
    ∀ env, Run a args env =
      ⟨-1, some ⟨"missing required parameter: " ++ p.Name, p.Name⟩, none, none⟩ := by
  have hfind : a.Params.find?
      (fun q => q.Required && ((buildProvided a.Params args).lookup q.Name).isNone) = some p := by
    refine find?_of_first _ a.Params i p hp ?_ ?_
    · simp [hreq, hmiss]
    · intro j q hj hq
      by_cases hr : q.Required = true
      · have hsome := hfirst j q hj hq hr
        simp only [hr, Bool.true_and]
        cases hl : (buildProvided a.Params args).lookup q.Name with
        | none => rw [hl] at hsome; simp at hsome
        | some v => simp
      · have hr2 : q.Required = false := by
          revert hr
          cases q.Required <;> simp
        simp [hr2]
  have hpc : ParseCommand a args =
      Except.error ⟨"missing required parameter: " ++ p.Name, p.Name⟩ := by
    unfold ParseCommand
    rw [hfind]
  refine ⟨hpc, fun env => ?_⟩
  unfold Run
  rw [hpc]

/-- C2 witness (Scenario D of the spec): the `gc` alias with no arguments
fails naming `message`, and `Run` returns `-1` without spawning. -/
theorem c2_witness :
    ParseCommand gcAlias [] =
      Except.error ⟨"missing required parameter: message", "message"⟩ ∧
    Run gcAlias [] plainEnv =
      ⟨-1, some ⟨"missing required parameter: message", "message"⟩, none, none⟩ := by
  have h := c2_missing_required gcAlias [] 0 ⟨"message", "Commit message", true, ""⟩
    (by decide) (by decide) (by decide)
    (fun j q hj _ _ => absurd hj (Nat.not_lt_zero j))
  exact ⟨h.1, h.2 plainEnv⟩

/-! Claim C4 -/

/-- C4 counterexample: with two optional parameters sharing the name `a`
and arguments `["x", "y"]`, the code expands the template `{{a}}` to `"y"`
(the map value, i.e. the later argument), while expansion with strictly
positional per-parameter binding — what the claim describes — yields
`"x"`. -/
theorem c4_counterexample :
    ParseCommand dupOptAlias ["x", "y"] = Except.ok "y" ∧
    expandPositional dupOptAlias.Params ["x", "y"] dupOptAlias.Command = "x" ∧
    ("y" : String) ≠ "x" := by
  refine ⟨?_, ?_, by decide⟩
  · simp [ParseCommand, dupOptAlias, buildProvided, substitute, resolveValue, replaceAllStr,
      replaceList, placeholder, List.lookup, List.find?]
  · simp [expandPositional, dupOptAlias, replaceAllStr, replaceList, placeholder,
      List.isPrefixOf]

/-- C4 (amended): for aliases whose declared parameter names are pairwise
distinct, `ParseCommand` realises exactly the claim: every satisfied
argument list expands the template by replacing, parameter by parameter in
declaration order, every occurrence of `{{name}}` in the
progressively-mutated template with the positionally bound value, an
optional parameter without an argument receiving its default. -/
theorem c4_expansion (a : Alias) (args : List String)
    (hnd : (a.Params.map Param.Name).Nodup)
    (hreq : ∀ p ∈ a.Params, p.Required = true →
      ((buildProvided a.Params args).lookup p.Name).isSome) :
    ParseCommand a args = Except.ok (expandPositional a.Params args a.Command) := by
  have hfind : a.Params.find?
      (fun q => q.Required && ((buildProvided a.Params args).lookup q.Name).isNone) = none := by
    refine List.find?_eq_none.mpr (fun q hq => ?_)
    by_cases hr : q.Required = true
    · have hsome := hreq q hq hr
      simp only [hr, Bool.true_and]
      cases hl : (buildProvided a.Params args).lookup q.Name with
      | none => rw [hl] at hsome; simp at hsome
      | some v => simp
    · have hr2 : q.Required = false := by
        revert hr
        cases q.Required <;> simp
      simp [hr2]
  unfold ParseCommand
  rw [hfind, substitute_eq_expandPositional a.Params args a.Command hnd]

/-- C4 witness (Scenario B of the spec): `git push origin {{branch}}` with
an optional `branch` defaulting to `main` and no arguments expands to
`git push origin main`. -/
theorem c4_witness :
    ParseCommand gpAlias [] = Except.ok (expandPositional gpAlias.Params [] gpAlias.Command) ∧
    expandPositional gpAlias.Params [] gpAlias.Command = "git push origin main" := by
  refine ⟨c4_expansion gpAlias [] (by decide) (by decide), ?_⟩
  simp [expandPositional, gpAlias, replaceAllStr, replaceList, placeholder, List.isPrefixOf]

/-! Claim C3 -/

/-- C3: outside dry-run mode, `Execute` returns a non-`nil` error exactly
when the child could not be started at all, and then with the sentinel exit
code `-1`; whenever the child runs and terminates normally with exit status
`n` — including nonzero `n` — `Execute` returns `n` with no error. -/
theorem c3_execute_exit_codes (command : String) (opts : ExecuteOptions) (env : ExecEnv)
    (hdr : opts.DryRun = false) :
    ((Execute command opts env).err ≠ none ↔
      ∃ m, env.outcome = ChildOutcome.startFailure m) ∧
    ((Execute command opts env).err ≠ none → (Execute command opts env).exitCode = -1) ∧
    (∀ n : Int, env.outcome = ChildOutcome.exited n →
      (Execute command opts env).exitCode = n ∧ (Execute command opts env).err = none) := by
  refine ⟨?_, ?_, ?_⟩
  · cases houtcome : env.outcome with
    | exited n =>
      by_cases hn : n = 0 <;> simp [Execute, hdr, houtcome, cmdRunResult, hn]
    | signaled => simp [Execute, hdr, houtcome, cmdRunResult]
    | startFailure m => simp [Execute, hdr, houtcome, cmdRunResult]
  · cases houtcome : env.outcome with
    | exited n =>
      by_cases hn : n = 0 <;> simp [Execute, hdr, houtcome, cmdRunResult, hn]
    | signaled => simp [Execute, hdr, houtcome, cmdRunResult]
    | startFailure m => simp [Execute, hdr, houtcome, cmdRunResult]
  · intro n hout
    by_cases hn : n = 0 <;> simp [Execute, hdr, hout, cmdRunResult, hn]

/-- C3 witness (Scenario E of the spec): a child exiting with status 2
makes `Execute` report exit code 2 without raising a failure. -/
theorem c3_witness :
    (Execute "ls nonexistent" ⟨"", false, false⟩
      ⟨none, "/bin/sh", false, ChildOutcome.exited 2⟩).exitCode = 2 ∧
    (Execute "ls nonexistent" ⟨"", false, false⟩
      ⟨none, "/bin/sh", false, ChildOutcome.exited 2⟩).err = none :=
  (c3_execute_exit_codes "ls nonexistent" ⟨"", false, false⟩
    ⟨none, "/bin/sh", false, ChildOutcome.exited 2⟩ rfl).2.2 2 rfl

/-! Claim C5 -/

/-- C5: `ExtractPlaceholders` returns exactly the identifiers captured by
the non-overlapping left-to-right matches of `{{` + one-or-more word
characters + `}}`, in left-to-right textual order, duplicates preserved
(`RegexCaptures` is that match semantics, and is deterministic). -/
theorem c5_extract_placeholders (command : String) :
    RegexCaptures command.data (ExtractPlaceholders command) :=
  scanPlaceholders_regexCaptures command.data

/-! Claim C6 -/

/-- C6: arguments beyond the declared parameter count have no effect:
`ParseCommand` behaves on any argument list exactly as on its truncation to
the number of declared parameters (so extra arguments never cause a binding
failure and never change the expanded command). -/
theorem c6_extra_args_ignored (a : Alias) (args : List String) :
    ParseCommand a args = ParseCommand a (args.take a.Params.length) := by
  unfold ParseCommand
  rw [← buildProvided_take]

/-! Claim C7 -/

/-- C7: if no declared parameter's placeholder token occurs in the
template, `ParseCommand` returns the template unchanged (for every argument
list satisfying the required-parameter precondition). -/
theorem c7_no_placeholder_identity (a : Alias) (args : List String)
    (hocc : ∀ p ∈ a.Params, occurs (placeholder p.Name).data a.Command.data = false)
    (hreq : ∀ p ∈ a.Params, p.Required = true →
      ((buildProvided a.Params args).lookup p.Name).isSome) :
    ParseCommand a args = Except.ok a.Command := by
  have hfind : a.Params.find?
      (fun q => q.Required && ((buildProvided a.Params args).lookup q.Name).isNone) = none := by
    refine List.find?_eq_none.mpr (fun q hq => ?_)
    by_cases hr : q.Required = true
    · have hsome := hreq q hq hr
      simp only [hr, Bool.true_and]
      cases hl : (buildProvided a.Params args).lookup q.Name with
      | none => rw [hl] at hsome; simp at hsome
      | some v => simp
    · have hr2 : q.Required = false := by
        revert hr
        cases q.Required <;> simp
      simp [hr2]
  unfold ParseCommand
  rw [hfind, substitute_of_no_occurs a.Params _ a.Command hocc]

/-- C7 witness: an alias whose template mentions no placeholder expands to
the template itself. -/
theorem c7_witness :
    ParseCommand ⟨"e", "echo hi", "", [⟨"x", "", false, ""⟩]⟩ [] = Except.ok "echo hi" :=
  c7_no_placeholder_identity ⟨"e", "echo hi", "", [⟨"x", "", false, ""⟩]⟩ []
    (by decide) (by decide)

/-! Claim C8 -/

/-- C8: in dry-run mode, `Execute` emits the expanded command line, returns
exit code 0 with no error, and constructs no child process. -/
theorem c8_dry_run (command : String) (opts : ExecuteOptions) (env : ExecEnv)
    (hdr : opts.DryRun = true) :
    (Execute command opts env).exitCode = 0 ∧
    (Execute command opts env).err = none ∧
    (Execute command opts env).spawned = none ∧
    ("[dry-run] Would execute: " ++ command) ∈ (Execute command opts env).printed := by
  refine ⟨?_, ?_, ?_, ?_⟩ <;> simp [Execute, hdr]

/-- C8 witness (Scenario F of the spec): dry-running `echo hi` records the
command and succeeds without spawning. -/
theorem c8_witness :
    (Execute "echo hi" ⟨"", false, true⟩ plainEnv).exitCode = 0 ∧
    (Execute "echo hi" ⟨"", false, true⟩ plainEnv).err = none ∧
    (Execute "echo hi" ⟨"", false, true⟩ plainEnv).spawned = none ∧
    ("[dry-run] Would execute: echo hi") ∈ (Execute "echo hi" ⟨"", false, true⟩ plainEnv).printed :=
  c8_dry_run "echo hi" ⟨"", false, true⟩ plainEnv rfl

/-! Claim C9 -/

/-- C9: the verbose flag has no effect on execution semantics: two `Execute`
calls differing only in `Verbose` return the same exit code, the same error
outcome, and spawn the same child invocation. -/
theorem c9_verbose_no_effect (command : String) (opts₁ opts₂ : ExecuteOptions)
    (env : ExecEnv) (hs : opts₁.Shell = opts₂.Shell) (hd : opts₁.DryRun = opts₂.DryRun) :
    (Execute command opts₁ env).exitCode = (Execute command opts₂ env).exitCode ∧
    (Execute command opts₁ env).err = (Execute command opts₂ env).err ∧
    (Execute command opts₁ env).spawned = (Execute command opts₂ env).spawned := by
  obtain ⟨s₁, v₁, d₁⟩ := opts₁
  obtain ⟨s₂, v₂, d₂⟩ := opts₂
  simp only at hs hd
  subst hs
  subst hd
  cases d₁ with
  | true => refine ⟨?_, ?_, ?_⟩ <;> simp [Execute]
  | false =>
    cases hcr : cmdRunResult env.outcome with
    | none => refine ⟨?_, ?_, ?_⟩ <;> simp [Execute, hcr]
    | some ge =>
      cases ge with
      | exitError c => refine ⟨?_, ?_, ?_⟩ <;> simp [Execute, hcr]
      | other m => refine ⟨?_, ?_, ?_⟩ <;> simp [Execute, hcr]

/-- C9 witness: a verbose and a quiet run of the same command in the same
environment agree on exit code, error, and spawned child. -/
theorem c9_witness :
    (Execute "make test" ⟨"", true, false⟩ plainEnv).exitCode =
      (Execute "make test" ⟨"", false, false⟩ plainEnv).exitCode ∧
    (Execute "make test" ⟨"", true, false⟩ plainEnv).err =
      (Execute "make test" ⟨"", false, false⟩ plainEnv).err ∧
    (Execute "make test" ⟨"", true, false⟩ plainEnv).spawned =
      (Execute "make test" ⟨"", false, false⟩ plainEnv).spawned :=
  c9_verbose_no_effect "make test" ⟨"", true, false⟩ ⟨"", false, false⟩ plainEnv rfl rfl

/-! Claim C10 -/

/-- C10: `AddAlias` is atomic with respect to name uniqueness: when a
stored alias already carries the new alias's name, it returns an error and
leaves the stored list unchanged; otherwise it reports no error and appends
the new alias at the end, preserving every stored alias in order. -/
theorem c10_addAlias_atomic (aliases : List Alias) (a : Alias) :
    ((∃ x ∈ aliases, x.Name = a.Name) →
      (AddAlias aliases a).1.isSome = true ∧ (AddAlias aliases a).2 = aliases) ∧
    ((∀ x ∈ aliases, x.Name ≠ a.Name) →
      (AddAlias aliases a).1 = none ∧ (AddAlias aliases a).2 = aliases ++ [a]) := by
  constructor
  · intro hex
    obtain ⟨x, hx, hname⟩ := hex
    cases hf : aliases.find? (fun y => y.Name == a.Name) with
    | none =>
      have hall := List.find?_eq_none.mp hf x hx
      simp [hname] at hall
    | some y =>
      unfold AddAlias
      rw [hf]
      exact ⟨rfl, rfl⟩
  · intro hall
    have hf : aliases.find? (fun y => y.Name == a.Name) = none :=
      List.find?_eq_none.mpr (fun y hy => by simp [hall y hy])
    unfold AddAlias
    rw [hf]
    exact ⟨rfl, rfl⟩

/-- C10 witness: adding a name-clashing alias errors and keeps the list;
adding a fresh one appends it. -/
theorem c10_witness :
    ((AddAlias [⟨"gs", "git status", "", []⟩] ⟨"gs", "other", "", []⟩).1.isSome = true ∧
      (AddAlias [⟨"gs", "git status", "", []⟩] ⟨"gs", "other", "", []⟩).2 =
        [⟨"gs", "git status", "", []⟩]) ∧
    ((AddAlias [⟨"gs", "git status", "", []⟩] ⟨"gp", "git push", "", []⟩).1 = none ∧
      (AddAlias [⟨"gs", "git status", "", []⟩] ⟨"gp", "git push", "", []⟩).2 =
        [⟨"gs", "git status", "", []⟩] ++ [⟨"gp", "git push", "", []⟩]) :=
  ⟨(c10_addAlias_atomic [⟨"gs", "git status", "", []⟩] ⟨"gs", "other", "", []⟩).1
      ⟨⟨"gs", "git status", "", []⟩, by decide, by decide⟩,
   (c10_addAlias_atomic [⟨"gs", "git status", "", []⟩] ⟨"gp", "git push", "", []⟩).2
      (by decide)⟩

end Aliasly
